import Mathlib

/-!
Verification of the crossword placement engine of `crossword_game.py`.

The grid is a list of rows, each cell `Option Char` (`none` = empty, as in
the Python source where empty cells hold `None`).  Coordinates are `Int`
because the crossing search can produce negative anchor coordinates
(`row = placed.row - j`), which `can_place`'s bounds check then rejects.
Out-of-bounds reads return `none` and out-of-bounds writes are no-ops; the
Python code never actually performs an out-of-bounds access on the grids it
builds (every access is behind a bounds guard once the word is non-empty),
so these totalisations agree with the source wherever the source is defined.
-/

namespace Crossword

/-- Orientation of a word: the Python source encodes `0 = horizontal`,
`1 = vertical`. -/
inductive Dir where
  | horizontal
  | vertical
deriving DecidableEq, Repr

/-- Row step per letter index: `(direction == 1) * i` in the source. -/
def Dir.dr : Dir → Int
  | .horizontal => 0
  | .vertical => 1

/-- Column step per letter index: `(direction == 0) * i` in the source. -/
def Dir.dc : Dir → Int
  | .horizontal => 1
  | .vertical => 0

/-- Source class `WordEntry`: a word (list of characters) with its clue. -/
structure WordEntry where
  word : List Char
  clue : String
deriving DecidableEq, Repr

/-- Source class `PlacedWord`: a word entry together with its anchor cell and
orientation. -/
structure PlacedWord where
  entry : WordEntry
  row : Int
  col : Int
  direction : Dir
deriving DecidableEq, Repr

/-- The crossword grid: rows of optional letters (`grid[r][c]`). -/
abbrev Grid := List (List (Option Char))

/-- Read `grid[r][c]`; `none` when out of bounds. -/
def getCell (g : Grid) (r c : Int) : Option Char :=
  if 0 ≤ r ∧ 0 ≤ c then ((g.getD r.toNat []).getD c.toNat none) else none

/-- Write `grid[r][c] = ch`; no-op when out of bounds. -/
def setCell (g : Grid) (r c : Int) (ch : Char) : Grid :=
  if 0 ≤ r ∧ 0 ≤ c then
    g.set r.toNat ((g.getD r.toNat []).set c.toNat (some ch))
  else g

/-- Source function `initialise_grid`: a size×size grid of empty cells. -/
def initialise_grid (size : Nat) : Grid :=
  List.replicate size (List.replicate size none)

/-- The target cell of letter index `i`:
`(row + (direction == 1) * i, col + (direction == 0) * i)`. -/
def target (row col : Int) (d : Dir) (i : Nat) : Int × Int :=
  (row + d.dr * i, col + d.dc * i)

/-- The per-letter body of `can_place`'s loop: bounds check, conflict check
with an existing letter, and the perpendicular-adjacency check performed
when the target cell is empty. -/
def letterOk (g : Grid) (size : Int) (w : List Char) (row col : Int) (d : Dir)
    (i : Nat) : Bool :=
  let r := row + d.dr * i
  let c := col + d.dc * i
  if r < 0 ∨ size ≤ r ∨ c < 0 ∨ size ≤ c then false
  else
    match getCell g r c with
    | some existing => decide (existing = w.getD i ' ')
    | none =>
      match d with
      | .horizontal =>
        if 0 < r ∧ (getCell g (r - 1) c).isSome then false
        else if r < size - 1 ∧ (getCell g (r + 1) c).isSome then false
        else true
      | .vertical =>
        if 0 < c ∧ (getCell g r (c - 1)).isSome then false
        else if c < size - 1 ∧ (getCell g r (c + 1)).isSome then false
        else true

/-- The end-of-word checks of `can_place`: the cell immediately before the
start and the cell immediately after the end, along the word's own axis,
must be empty. -/
def endsOk (g : Grid) (size : Int) (L : Nat) (row col : Int) (d : Dir) : Bool :=
  match d with
  | .horizontal =>
    if 0 < col ∧ (getCell g row (col - 1)).isSome then false
    else if col + L < size ∧ (getCell g row (col + L)).isSome then false
    else true
  | .vertical =>
    if 0 < row ∧ (getCell g (row - 1) col).isSome then false
    else if row + L < size ∧ (getCell g (row + L) col).isSome then false
    else true

/-- Source function `can_place(word, row, col, direction, grid)`: the
per-letter loop followed by the end-of-word boundary checks.  The Python
early returns make the function a pure conjunction of all the checks. -/
def can_place (w : List Char) (row col : Int) (d : Dir) (g : Grid) : Bool :=
  let size : Int := g.length
  ((List.range w.length).all fun i => letterOk g size w row col d i) &&
    endsOk g size w.length row col d

/-- Write the first `n` letters of the word into their target cells, in
index order (the state of `place_word`'s loop after `n` iterations). -/
def placeUpTo (w : List Char) (row col : Int) (d : Dir) (g : Grid) (n : Nat) : Grid :=
  (List.range n).foldl
    (fun (acc : Grid) (i : Nat) =>
      setCell acc (row + d.dr * i) (col + d.dc * i) (w.getD i ' ')) g

/-- Source function `place_word`: write each letter into its target cell, in
index order. -/
def place_word (w : List Char) (row col : Int) (d : Dir) (g : Grid) : Grid :=
  placeUpTo w row col d g w.length

/-- The candidate anchor and orientation computed by `try_place_word` when
letter `i` of the placed word `p` equals letter `j` of the new word. -/
def crossPos (p : PlacedWord) (i j : Nat) : Int × Int × Dir :=
  match p.direction with
  | .horizontal => (p.row - (j : Int), p.col + (i : Int), Dir.vertical)
  | .vertical => (p.row + (i : Int), p.col - (j : Int), Dir.horizontal)

/-- All candidate placements `try_place_word` considers against one placed
word, in its loop order: placed letter index `i` ascending, then new-word
letter index `j` ascending, keeping only pairs of equal letters. -/
def crossCandidatesFor (w : List Char) (p : PlacedWord) : List (Int × Int × Dir) :=
  (List.range p.entry.word.length).flatMap fun i =>
    (List.range w.length).filterMap fun j =>
      if p.entry.word.getD i ' ' = w.getD j ' ' then some (crossPos p i j) else none

/-- Source function `try_place_word(entry, placed, grid)`: scan placed words oldest first;
for each, take the first equal-letter candidate placement accepted by
`can_place`, write the word and return the new `PlacedWord`; otherwise
continue; `None` when every candidate fails.  The grid is returned
explicitly because the Python function mutates it on success. -/
def try_place_word (entry : WordEntry) (placed : List PlacedWord) (g : Grid) :
    Option PlacedWord × Grid :=
  match placed with
  | [] => (none, g)
  | p :: rest =>
    match (crossCandidatesFor entry.word p).find? (fun rcd =>
        can_place entry.word rcd.1 rcd.2.1 rcd.2.2 g) with
    | some (r, c, d) => (some ⟨entry, r, c, d⟩, place_word entry.word r c d g)
    | none => try_place_word entry rest g

/-- Stable insertion into a length-descending list: the new element goes in
front of the first strictly-shorter element and behind equal-length ones,
matching the stable `list.sort(key=len, reverse=True)` of the source. -/
def insertByLen (e : WordEntry) : List WordEntry → List WordEntry
  | [] => [e]
  | x :: xs =>
    if x.word.length ≤ e.word.length then e :: x :: xs
    else x :: insertByLen e xs

/-- Sort candidates by word length, descending, stably (Python's `sort` is
stable; a stable insertion sort on the same key yields the same list). -/
def sortCandidates (l : List WordEntry) : List WordEntry :=
  l.foldr insertByLen []

/-- The crossing phase of `generate_crossword`: for each remaining entry in
order, run `try_place_word`; append the result on success, skip on
failure. -/
def placeLoop (rest : List WordEntry) (g : Grid) (placed : List PlacedWord) :
    Grid × List PlacedWord :=
  match rest with
  | [] => (g, placed)
  | e :: es =>
    match try_place_word e placed g with
    | (some pw, g') => placeLoop es g' (placed ++ [pw])
    | (none, g') => placeLoop es g' placed

/-- Source function `generate_crossword` after the random selection step: sort by length
descending, seed the first word horizontally at the centre row (skipping it
if `can_place` refuses, with no fallback), then run the crossing loop over
the remaining candidates. -/
def generate_crossword (selected : List WordEntry) (size : Nat) :
    Grid × List PlacedWord :=
  let g := initialise_grid size
  match sortCandidates selected with
  | [] => (g, [])
  | first :: rest =>
    let row : Int := (size : Int) / 2
    let col : Int := max 0 (((size : Int) - (first.word.length : Int)) / 2)
    if can_place first.word row col .horizontal g then
      placeLoop rest (place_word first.word row col .horizontal g)
        [⟨first, row, col, .horizontal⟩]
    else
      placeLoop rest g []

/-- The across-start test of `number_grid`: left neighbour off-grid or
empty, and right neighbour on-grid and non-empty. -/
def startAcross (g : Grid) (size : Int) (r c : Int) : Bool :=
  decide ((c = 0 ∨ getCell g r (c - 1) = none) ∧
    (c + 1 < size ∧ getCell g r (c + 1) ≠ none))

/-- The down-start test of `number_grid`: neighbour above off-grid or empty,
and neighbour below on-grid and non-empty. -/
def startDown (g : Grid) (size : Int) (r c : Int) : Bool :=
  decide ((r = 0 ∨ getCell g (r - 1) c = none) ∧
    (r + 1 < size ∧ getCell g (r + 1) c ≠ none))

/-- The linear scan `number_grid` uses to bind a clue: the first placed word
with the given orientation anchored at `(r, c)`. -/
def findClue (placed : List PlacedWord) (d : Dir) (r c : Int) : Option String :=
  (placed.find? fun pw =>
    decide (pw.direction = d ∧ pw.row = r ∧ pw.col = c)).map (·.entry.clue)

/-- The grid's cells in row-major scan order. -/
def cellsRM (size : Nat) : List (Nat × Nat) :=
  (List.range size).flatMap fun r => (List.range size).map fun c => (r, c)

/-- The three maps built by `number_grid`, as association lists in insertion
order (the Python dicts preserve insertion order and every inserted key
is fresh). -/
structure Numbering where
  numbers : List (Nat × (Nat × Nat))
  across : List (Nat × String)
  down : List (Nat × String)
deriving DecidableEq, Repr

/-- One iteration of `number_grid`'s row-major scan: skip empty cells;
number a cell when it starts an across or down answer, binding the clues
found by the linear scans; the counter advances once per numbered cell. -/
def numberStep (g : Grid) (placed : List PlacedWord) (size : Int)
    (st : Nat × Numbering) (rc : Nat × Nat) : Nat × Numbering :=
  let r : Int := rc.1
  let c : Int := rc.2
  if getCell g r c = none then st
  else
    let sa := startAcross g size r c
    let sd := startDown g size r c
    if sa || sd then
      let num := st.1
      let ac :=
        if sa then
          match findClue placed .horizontal r c with
          | some clue => st.2.across ++ [(num, clue)]
          | none => st.2.across
        else st.2.across
      let dn :=
        if sd then
          match findClue placed .vertical r c with
          | some clue => st.2.down ++ [(num, clue)]
          | none => st.2.down
        else st.2.down
      (num + 1, ⟨st.2.numbers ++ [(num, rc)], ac, dn⟩)
    else st

/-- Source function `number_grid(grid, placed_words)`: row-major scan assigning sequential
numbers from 1 and binding across/down clues.  (The `placed_lookup` table
built at the top of the Python function is dead code — the clue binding
below it scans `placed_words` directly — so it is not modelled.) -/
def number_grid (g : Grid) (placed : List PlacedWord) : Numbering :=
  ((cellsRM g.length).foldl (numberStep g placed g.length) (1, ⟨[], [], []⟩)).2

/-! ## Specification-side predicates

These phrase the spec sentences about `can_place`, placed words and the
numbering maps; the theorems below compare them with the source
translations above. -/

/-- A coordinate lies within `[0, size)` on both axes. -/
def onGrid (size r c : Int) : Prop := 0 ≤ r ∧ r < size ∧ 0 ≤ c ∧ c < size

/-- The two cells immediately perpendicular to a direction at cell
`(r, c)`: above and below for a horizontal word, left and right for a
vertical one. -/
def perpNeighbors (d : Dir) (r c : Int) : List (Int × Int) :=
  match d with
  | .horizontal => [(r - 1, c), (r + 1, c)]
  | .vertical => [(r, c - 1), (r, c + 1)]

/-- The cell immediately before the word's start and the cell immediately
after its end, along the word's own axis. -/
def wordEnds (L : Nat) (row col : Int) (d : Dir) : (Int × Int) × (Int × Int) :=
  match d with
  | .horizontal => ((row, col - 1), (row, col + L))
  | .vertical => ((row - 1, col), (row + L, col))

/-- Spec condition (1): every target cell lies within `[0, size)` on both
axes. -/
def targetsInBounds (w : List Char) (row col : Int) (d : Dir) (size : Int) : Prop :=
  ∀ i, i < w.length →
    onGrid size (target row col d i).1 (target row col d i).2

/-- Spec condition (2): no target cell holds a letter different from the
word's letter at that index (a matching letter is allowed). -/
def noLetterConflict (w : List Char) (row col : Int) (d : Dir) (g : Grid) : Prop :=
  ∀ i (hi : i < w.length) (ch : Char),
    getCell g (target row col d i).1 (target row col d i).2 = some ch →
      ch = w.get ⟨i, hi⟩

/-- Spec condition (3): for every target cell currently empty, each on-grid
cell immediately perpendicular to the word's direction is empty. -/
def perpendicularClear (w : List Char) (row col : Int) (d : Dir) (g : Grid)
    (size : Int) : Prop :=
  ∀ i, i < w.length →
    getCell g (target row col d i).1 (target row col d i).2 = none →
    ∀ nb ∈ perpNeighbors d (target row col d i).1 (target row col d i).2,
      onGrid size nb.1 nb.2 → getCell g nb.1 nb.2 = none

/-- Spec condition (4): the on-grid cell immediately before the word's start
and the on-grid cell immediately after its end, along the word's own axis,
are empty. -/
def endsClear (w : List Char) (row col : Int) (d : Dir) (g : Grid) (size : Int) : Prop :=
  (onGrid size (wordEnds w.length row col d).1.1 (wordEnds w.length row col d).1.2 →
    getCell g (wordEnds w.length row col d).1.1 (wordEnds w.length row col d).1.2 = none) ∧
  (onGrid size (wordEnds w.length row col d).2.1 (wordEnds w.length row col d).2.2 →
    getCell g (wordEnds w.length row col d).2.1 (wordEnds w.length row col d).2.2 = none)

/-- The letters of the grid along a word's cells, from its anchor in its
orientation. -/
def readCells (g : Grid) (row col : Int) (d : Dir) (n : Nat) : List (Option Char) :=
  (List.range n).map fun (i : Nat) => getCell g (row + d.dr * i) (col + d.dc * i)

/-- Invariant of `PlacedWord`: reading the grid from the anchor in the
orientation yields exactly the letters of the word. -/
def readsBack (g : Grid) (p : PlacedWord) : Prop :=
  readCells g p.row p.col p.direction p.entry.word.length = p.entry.word.map some

instance (g : Grid) (p : PlacedWord) : Decidable (readsBack g p) := by
  unfold readsBack
  infer_instance

/-- Every row of the grid has the same length as the grid itself (true of
every grid the program constructs). -/
def isSquare (g : Grid) : Prop :=
  ∀ k, k < g.length → (g.getD k []).length = g.length

instance (g : Grid) : Decidable (isSquare g) := by
  unfold isSquare
  infer_instance

/-- All candidate placements `try_place_word` enumerates, in its exact
order: already-placed words oldest first, then placed letter index, then
candidate letter index. -/
def crossCandidates (w : List Char) (placed : List PlacedWord) : List (Int × Int × Dir) :=
  placed.flatMap (crossCandidatesFor w)

/-- Strict row-major order on coordinates. -/
def rowMajorLt (a b : Nat × Nat) : Prop := a.1 < b.1 ∨ (a.1 = b.1 ∧ a.2 < b.2)

/-- A cell receives a number exactly when it is non-empty and starts an
across answer or a down answer. -/
def isStart (g : Grid) (size : Int) (rc : Nat × Nat) : Bool :=
  decide (getCell g rc.1 rc.2 ≠ none) &&
    (startAcross g size rc.1 rc.2 || startDown g size rc.1 rc.2)

/-- Spec side of the numbers map: the start cells in row-major scan
order. -/
def numberedCells (g : Grid) : List (Nat × Nat) :=
  (cellsRM g.length).filter (isStart g g.length)

/-- Spec side of the numbers map: start cells numbered sequentially from
1 in row-major order. -/
def numbersSpec (g : Grid) : List (Nat × (Nat × Nat)) :=
  List.enumFrom 1 (numberedCells g)

/-- Across-clue bindings for numbered cells starting at number `n`: each
across-start cell binds its number to the clue of the first placed
horizontal word anchored there (when one exists). -/
def acrossOf (g : Grid) (size : Int) (placed : List PlacedWord) (n : Nat)
    (cells : List (Nat × Nat)) : List (Nat × String) :=
  (List.enumFrom n cells).filterMap fun krc =>
    if startAcross g size krc.2.1 krc.2.2 then
      (findClue placed .horizontal krc.2.1 krc.2.2).map fun cl => (krc.1, cl)
    else none

/-- Down-clue bindings, symmetrically to `acrossOf`. -/
def downOf (g : Grid) (size : Int) (placed : List PlacedWord) (n : Nat)
    (cells : List (Nat × Nat)) : List (Nat × String) :=
  (List.enumFrom n cells).filterMap fun krc =>
    if startDown g size krc.2.1 krc.2.2 then
      (findClue placed .vertical krc.2.1 krc.2.2).map fun cl => (krc.1, cl)
    else none

/-- Spec side of the across map. -/
def acrossSpec (g : Grid) (placed : List PlacedWord) : List (Nat × String) :=
  acrossOf g g.length placed 1 (numberedCells g)

/-- Spec side of the down map. -/
def downSpec (g : Grid) (placed : List PlacedWord) : List (Nat × String) :=
  downOf g g.length placed 1 (numberedCells g)

/-! ## Cell-level lemmas -/

theorem getD_set {α : Type*} (l : List α) (i k : Nat) (x d : α) :
    (l.set i x).getD k d = if i = k ∧ i < l.length then x else l.getD k d := by
  rw [List.getD_eq_getElem?_getD, List.getElem?_set, List.getD_eq_getElem?_getD]
  by_cases h1 : i = k
  · subst h1
    by_cases h2 : i < l.length
    · simp [h2]
    · simp [h2, List.getElem?_eq_none (le_of_not_lt h2)]
  · simp [h1]

theorem getD_replicate' {α : Type*} (n : Nat) (x d : α) (k : Nat) :
    (List.replicate n x).getD k d = if k < n then x else d := by
  rw [List.getD_eq_getElem?_getD, List.getElem?_replicate]
  split <;> rfl

theorem getCell_initialise (N : Nat) (r c : Int) :
    getCell (initialise_grid N) r c = none := by
  unfold getCell initialise_grid
  split
  · rw [getD_replicate']
    split
    · rw [getD_replicate']
      split <;> rfl
    · rfl
  · rfl

theorem length_setCell (g : Grid) (r c : Int) (ch : Char) :
    (setCell g r c ch).length = g.length := by
  unfold setCell
  split <;> simp

theorem rowLength_setCell (g : Grid) (r c : Int) (ch : Char) (k : Nat) :
    ((setCell g r c ch).getD k []).length = (g.getD k []).length := by
  unfold setCell
  split
  · rw [getD_set]
    split
    case isTrue h => rw [List.length_set, ← h.1]
    case isFalse => rfl
  · rfl

theorem isSquare_setCell {g : Grid} (h : isSquare g) (r c : Int) (ch : Char) :
    isSquare (setCell g r c ch) := by
  intro k hk
  rw [rowLength_setCell, length_setCell]
  exact h k (by rwa [length_setCell] at hk)

theorem getCell_setCell_ne (g : Grid) (r c r' c' : Int) (ch : Char)
    (h : r' ≠ r ∨ c' ≠ c) :
    getCell (setCell g r c ch) r' c' = getCell g r' c' := by
  unfold getCell setCell
  split
  case isFalse => rfl
  case isTrue hrc =>
    split
    case isFalse => rfl
    case isTrue hrc' =>
      rw [getD_set]
      split
      case isFalse => rfl
      case isTrue hk =>
        have hr : r = r' := by omega
        have hc : c' ≠ c := by tauto
        rw [getD_set, if_neg (by omega), hr]

theorem getCell_setCell_self (g : Grid) (r c : Int) (ch : Char)
    (hr : 0 ≤ r) (hc : 0 ≤ c) (hrl : r.toNat < g.length)
    (hcl : c.toNat < (g.getD r.toNat []).length) :
    getCell (setCell g r c ch) r c = some ch := by
  unfold getCell setCell
  rw [if_pos ⟨hr, hc⟩, if_pos ⟨hr, hc⟩, getD_set, if_pos ⟨rfl, hrl⟩,
    getD_set, if_pos ⟨rfl, hcl⟩]

/-! ## Lemmas about `place_word` -/

theorem placeUpTo_succ (w : List Char) (row col : Int) (d : Dir) (g : Grid) (n : Nat) :
    placeUpTo w row col d g (n + 1) =
      setCell (placeUpTo w row col d g n)
        (row + d.dr * n) (col + d.dc * n) (w.getD n ' ') := by
  unfold placeUpTo
  rw [List.range_succ, List.foldl_append]
  rfl

theorem length_placeUpTo (w : List Char) (row col : Int) (d : Dir) (g : Grid) (n : Nat) :
    (placeUpTo w row col d g n).length = g.length := by
  induction n with
  | zero => rfl
  | succ n ih => rw [placeUpTo_succ, length_setCell, ih]

theorem rowLength_placeUpTo (w : List Char) (row col : Int) (d : Dir) (g : Grid)
    (n k : Nat) :
    ((placeUpTo w row col d g n).getD k []).length = (g.getD k []).length := by
  induction n with
  | zero => rfl
  | succ n ih => rw [placeUpTo_succ, rowLength_setCell, ih]

theorem isSquare_placeUpTo {g : Grid} (h : isSquare g) (w : List Char)
    (row col : Int) (d : Dir) (n : Nat) : isSquare (placeUpTo w row col d g n) := by
  intro k hk
  rw [rowLength_placeUpTo, length_placeUpTo]
  exact h k (by rwa [length_placeUpTo] at hk)

theorem target_inj (row col : Int) (d : Dir) {i j : Nat}
    (h : target row col d i = target row col d j) : i = j := by
  cases d <;> simp [target, Dir.dr, Dir.dc, Prod.ext_iff] at h <;> omega

theorem getCell_placeUpTo_ne (w : List Char) (row col : Int) (d : Dir) (g : Grid)
    (n : Nat) (r' c' : Int) (h : ∀ i, i < n → target row col d i ≠ (r', c')) :
    getCell (placeUpTo w row col d g n) r' c' = getCell g r' c' := by
  induction n with
  | zero => rfl
  | succ n ih =>
    have hne : r' ≠ row + d.dr * n ∨ c' ≠ col + d.dc * n := by
      rcases eq_or_ne r' (row + d.dr * n) with hr | hr
      · right
        intro hc
        exact h n (Nat.lt_succ_self n) (by simp [target, hr, hc])
      · exact Or.inl hr
    rw [placeUpTo_succ, getCell_setCell_ne _ _ _ _ _ _ hne]
    exact ih fun i hi => h i (Nat.lt_succ_of_lt hi)

theorem getCell_placeUpTo_target (w : List Char) (row col : Int) (d : Dir)
    {g : Grid} {n i : Nat} (hi : i < n) (hsq : isSquare g)
    (hb : onGrid g.length (target row col d i).1 (target row col d i).2) :
    getCell (placeUpTo w row col d g n)
      (target row col d i).1 (target row col d i).2 = some (w.getD i ' ') := by
  obtain ⟨hb1, hb2, hb3, hb4⟩ := hb
  induction n with
  | zero => omega
  | succ n ih =>
    rw [placeUpTo_succ]
    rcases eq_or_ne i n with he | hne
    · subst he
      have h1 : (target row col d i).1.toNat < (placeUpTo w row col d g i).length := by
        rw [length_placeUpTo]; omega
      have h2 : (target row col d i).2.toNat <
          ((placeUpTo w row col d g i).getD (target row col d i).1.toNat []).length := by
        rw [rowLength_placeUpTo, hsq _ (by omega)]
        omega
      exact getCell_setCell_self _ _ _ _ hb1 hb3 h1 h2
    · have hx : target row col d i ≠ target row col d n := fun hcon =>
        hne (target_inj _ _ _ hcon)
      have hne2 : (target row col d i).1 ≠ row + d.dr * n ∨
          (target row col d i).2 ≠ col + d.dc * n := by
        rcases eq_or_ne (target row col d i).1 (row + d.dr * n) with h1 | h1
        · right
          intro h2
          exact hx (Prod.ext_iff.mpr ⟨h1, h2⟩)
        · exact Or.inl h1
      rw [getCell_setCell_ne _ _ _ _ _ _ hne2]
      exact ih (by omega)

/-! ## Extraction lemmas for `can_place` -/

theorem letterOk_onGrid {g : Grid} {size : Int} {w : List Char} {row col : Int}
    {d : Dir} {i : Nat} (h : letterOk g size w row col d i = true) :
    onGrid size (row + d.dr * i) (col + d.dc * i) := by
  simp only [letterOk] at h
  split at h
  · exact absurd h (by simp)
  · unfold onGrid
    omega

theorem letterOk_match {g : Grid} {size : Int} {w : List Char} {row col : Int}
    {d : Dir} {i : Nat} (h : letterOk g size w row col d i = true) (ch : Char)
    (hc : getCell g (row + d.dr * i) (col + d.dc * i) = some ch) :
    ch = w.getD i ' ' := by
  simp only [letterOk] at h
  split at h
  · exact absurd h (by simp)
  · rw [hc] at h
    exact of_decide_eq_true h

theorem can_place_iff_parts {w : List Char} {row col : Int} {d : Dir} {g : Grid} :
    can_place w row col d g = true ↔
      (∀ i, i < w.length → letterOk g g.length w row col d i = true) ∧
        endsOk g g.length w.length row col d = true := by
  simp [can_place, List.all_eq_true, List.mem_range]

theorem can_place_inBounds {w : List Char} {row col : Int} {d : Dir} {g : Grid}
    (h : can_place w row col d g = true) :
    targetsInBounds w row col d g.length :=
  fun i hi => letterOk_onGrid ((can_place_iff_parts.mp h).1 i hi)

theorem ite_false_ite_false_true {A B : Prop} [Decidable A] [Decidable B] :
    ((if A then false else if B then false else true) = true) ↔ (¬A ∧ ¬B) := by
  split_ifs with h1 h2
  · simp [h1]
  · simp [h1, h2]
  · simp [h1, h2]

theorem letterOk_iff {g : Grid} {size : Int} {w : List Char} {row col : Int}
    {d : Dir} {i : Nat} :
    letterOk g size w row col d i = true ↔
      (onGrid size (row + d.dr * i) (col + d.dc * i) ∧
        (∀ ch, getCell g (row + d.dr * i) (col + d.dc * i) = some ch →
          ch = w.getD i ' ') ∧
        (getCell g (row + d.dr * i) (col + d.dc * i) = none →
          ∀ nb ∈ perpNeighbors d (row + d.dr * i) (col + d.dc * i),
            onGrid size nb.1 nb.2 → getCell g nb.1 nb.2 = none)) := by
  cases d
  case horizontal =>
    simp only [letterOk, Dir.dr, Dir.dc, perpNeighbors]
    split
    case isTrue hoob =>
      constructor
      · intro h
        exact absurd h (by simp)
      · rintro ⟨h1, -, -⟩
        exfalso
        revert h1
        unfold onGrid
        omega
    case isFalse hoob =>
      cases hgc : getCell g (row + 0 * (i : Int)) (col + 1 * (i : Int)) with
      | some ch =>
        constructor
        · intro h
          refine ⟨by unfold onGrid; omega, ?_, ?_⟩
          · intro ch' hch'
            rw [← Option.some.inj hch']
            exact of_decide_eq_true h
          · intro h0
            exact absurd h0 (by simp)
        · rintro ⟨-, h2, -⟩
          exact decide_eq_true (h2 ch rfl)
      | none =>
        constructor
        · intro h
          obtain ⟨h1, h2⟩ := ite_false_ite_false_true.mp h
          refine ⟨by unfold onGrid; omega, ?_, ?_⟩
          · intro ch h0
            exact absurd h0 (by simp)
          · rintro - nb hnb hnbog
            simp only [onGrid] at hnbog
            fin_cases hnb
            · rcases Option.eq_none_or_eq_some
                  (getCell g (row + 0 * (i : Int) - 1) (col + 1 * (i : Int))) with
                hn | ⟨x, hs⟩
              · exact hn
              · exact absurd ⟨by omega, by rw [hs]; rfl⟩ h1
            · rcases Option.eq_none_or_eq_some
                  (getCell g (row + 0 * (i : Int) + 1) (col + 1 * (i : Int))) with
                hn | ⟨x, hs⟩
              · exact hn
              · exact absurd ⟨by omega, by rw [hs]; rfl⟩ h2
        · rintro ⟨-, -, h3⟩
          refine ite_false_ite_false_true.mpr ⟨?_, ?_⟩
          · rintro ⟨ha, hb⟩
            rw [Option.isSome_iff_ne_none] at hb
            refine hb (h3 rfl (row + 0 * (i : Int) - 1, col + 1 * (i : Int))
              (by simp) ?_)
            simp only [onGrid]
            omega
          · rintro ⟨ha, hb⟩
            rw [Option.isSome_iff_ne_none] at hb
            refine hb (h3 rfl (row + 0 * (i : Int) + 1, col + 1 * (i : Int))
              (by simp) ?_)
            simp only [onGrid]
            omega
  case vertical =>
    simp only [letterOk, Dir.dr, Dir.dc, perpNeighbors]
    split
    case isTrue hoob =>
      constructor
      · intro h
        exact absurd h (by simp)
      · rintro ⟨h1, -, -⟩
        exfalso
        revert h1
        unfold onGrid
        omega
    case isFalse hoob =>
      cases hgc : getCell g (row + 1 * (i : Int)) (col + 0 * (i : Int)) with
      | some ch =>
        constructor
        · intro h
          refine ⟨by unfold onGrid; omega, ?_, ?_⟩
          · intro ch' hch'
            rw [← Option.some.inj hch']
            exact of_decide_eq_true h
          · intro h0
            exact absurd h0 (by simp)
        · rintro ⟨-, h2, -⟩
          exact decide_eq_true (h2 ch rfl)
      | none =>
        constructor
        · intro h
          obtain ⟨h1, h2⟩ := ite_false_ite_false_true.mp h
          refine ⟨by unfold onGrid; omega, ?_, ?_⟩
          · intro ch h0
            exact absurd h0 (by simp)
          · rintro - nb hnb hnbog
            simp only [onGrid] at hnbog
            fin_cases hnb
            · rcases Option.eq_none_or_eq_some
                  (getCell g (row + 1 * (i : Int)) (col + 0 * (i : Int) - 1)) with
                hn | ⟨x, hs⟩
              · exact hn
              · exact absurd ⟨by omega, by rw [hs]; rfl⟩ h1
            · rcases Option.eq_none_or_eq_some
                  (getCell g (row + 1 * (i : Int)) (col + 0 * (i : Int) + 1)) with
                hn | ⟨x, hs⟩
              · exact hn
              · exact absurd ⟨by omega, by rw [hs]; rfl⟩ h2
        · rintro ⟨-, -, h3⟩
          refine ite_false_ite_false_true.mpr ⟨?_, ?_⟩
          · rintro ⟨ha, hb⟩
            rw [Option.isSome_iff_ne_none] at hb
            refine hb (h3 rfl (row + 1 * (i : Int), col + 0 * (i : Int) - 1)
              (by simp) ?_)
            simp only [onGrid]
            omega
          · rintro ⟨ha, hb⟩
            rw [Option.isSome_iff_ne_none] at hb
            refine hb (h3 rfl (row + 1 * (i : Int), col + 0 * (i : Int) + 1)
              (by simp) ?_)
            simp only [onGrid]
            omega

theorem endsOk_iff {g : Grid} {w : List Char} {row col : Int} {d : Dir}
    {size : Int} (hw : w ≠ []) (hb : targetsInBounds w row col d size) :
    endsOk g size w.length row col d = true ↔ endsClear w row col d g size := by
  have h0 := hb 0 (List.length_pos.mpr hw)
  simp only [target, onGrid] at h0
  cases d
  case horizontal =>
    simp only [Dir.dr, Dir.dc] at h0
    simp only [endsOk, endsClear, wordEnds, onGrid]
    rw [ite_false_ite_false_true]
    constructor
    · rintro ⟨h1, h2⟩
      constructor
      · intro hpre
        rcases Option.eq_none_or_eq_some (getCell g row (col - 1)) with hn | ⟨x, hs⟩
        · exact hn
        · exact absurd ⟨by omega, by rw [hs]; rfl⟩ h1
      · intro hpost
        rcases Option.eq_none_or_eq_some
            (getCell g row (col + (w.length : Int))) with hn | ⟨x, hs⟩
        · exact hn
        · exact absurd ⟨by omega, by rw [hs]; rfl⟩ h2
    · rintro ⟨hpre, hpost⟩
      constructor
      · rintro ⟨ha, hb'⟩
        rw [Option.isSome_iff_ne_none] at hb'
        exact hb' (hpre (by omega))
      · rintro ⟨ha, hb'⟩
        rw [Option.isSome_iff_ne_none] at hb'
        exact hb' (hpost (by omega))
  case vertical =>
    simp only [Dir.dr, Dir.dc] at h0
    simp only [endsOk, endsClear, wordEnds, onGrid]
    rw [ite_false_ite_false_true]
    constructor
    · rintro ⟨h1, h2⟩
      constructor
      · intro hpre
        rcases Option.eq_none_or_eq_some (getCell g (row - 1) col) with hn | ⟨x, hs⟩
        · exact hn
        · exact absurd ⟨by omega, by rw [hs]; rfl⟩ h1
      · intro hpost
        rcases Option.eq_none_or_eq_some
            (getCell g (row + (w.length : Int)) col) with hn | ⟨x, hs⟩
        · exact hn
        · exact absurd ⟨by omega, by rw [hs]; rfl⟩ h2
    · rintro ⟨hpre, hpost⟩
      constructor
      · rintro ⟨ha, hb'⟩
        rw [Option.isSome_iff_ne_none] at hb'
        exact hb' (hpre (by omega))
      · rintro ⟨ha, hb'⟩
        rw [Option.isSome_iff_ne_none] at hb'
        exact hb' (hpost (by omega))

theorem can_place_too_long {w : List Char} {g : Grid} (h : g.length < w.length)
    (row col : Int) (d : Dir) : can_place w row col d g = false := by
  by_contra hcon
  rw [Bool.not_eq_false] at hcon
  have hb := can_place_inBounds hcon
  have h0 := hb 0 (by omega)
  have h1 := hb (w.length - 1) (by omega)
  cases d <;> simp [target, onGrid, Dir.dr, Dir.dc] at h0 h1 <;> omega

/-! ## Round-trip and invariant preservation -/

theorem length_readCells (g : Grid) (row col : Int) (d : Dir) (n : Nat) :
    (readCells g row col d n).length = n := by
  simp only [readCells, List.length_map, List.length_range]

theorem getElem_readCells (g : Grid) (row col : Int) (d : Dir) (n : Nat)
    {i : Nat} (h : i < (readCells g row col d n).length) :
    (readCells g row col d n)[i] = getCell g (row + d.dr * i) (col + d.dc * i) := by
  simp only [readCells, List.getElem_map, List.getElem_range]

theorem place_then_read_core {w : List Char} {row col : Int} {d : Dir} {g : Grid}
    (hsq : isSquare g) (hcp : can_place w row col d g = true) :
    readCells (place_word w row col d g) row col d w.length = w.map some := by
  apply List.ext_getElem
  · rw [length_readCells, List.length_map]
  intro i h1 h2
  have hi : i < w.length := by rwa [length_readCells] at h1
  rw [getElem_readCells, List.getElem_map]
  have hb := can_place_inBounds hcp i hi
  have hmain := getCell_placeUpTo_target w row col d (g := g) (n := w.length) hi hsq hb
  simp only [target] at hmain
  unfold place_word
  rw [hmain, List.getD_eq_getElem w ' ' hi]

theorem readsBack_getCell {g : Grid} {p : PlacedWord} (h : readsBack g p)
    {k : Nat} (hk : k < p.entry.word.length) :
    getCell g (p.row + p.direction.dr * k) (p.col + p.direction.dc * k) =
      some (p.entry.word.getD k ' ') := by
  unfold readsBack at h
  have hA : k < (readCells g p.row p.col p.direction p.entry.word.length).length := by
    rwa [length_readCells]
  have h2 := List.getElem_of_eq h hA
  rw [getElem_readCells, List.getElem_map] at h2
  rw [h2, List.getD_eq_getElem p.entry.word ' ' hk]

theorem readsBack_place_word {g : Grid} {w : List Char} {row col : Int} {d : Dir}
    (hsq : isSquare g) (hcp : can_place w row col d g = true)
    {p : PlacedWord} (hp : readsBack g p) :
    readsBack (place_word w row col d g) p := by
  unfold readsBack
  apply List.ext_getElem
  · rw [length_readCells, List.length_map]
  intro k h1 h2
  have hk : k < p.entry.word.length := by rwa [length_readCells] at h1
  rw [getElem_readCells, List.getElem_map]
  have hold := readsBack_getCell hp hk
  by_cases hex : ∃ i, i < w.length ∧
      target row col d i = target p.row p.col p.direction k
  · obtain ⟨i, hi, hti⟩ := hex
    have hti1 : row + d.dr * i = p.row + p.direction.dr * k :=
      congrArg Prod.fst hti
    have hti2 : col + d.dc * i = p.col + p.direction.dc * k :=
      congrArg Prod.snd hti
    have hb := can_place_inBounds hcp i hi
    have hnew := getCell_placeUpTo_target w row col d (g := g) (n := w.length) hi hsq hb
    simp only [target] at hnew
    have hmatch : p.entry.word.getD k ' ' = w.getD i ' ' :=
      letterOk_match ((can_place_iff_parts.mp hcp).1 i hi) _
        (by rw [hti1, hti2, hold])
    unfold place_word
    rw [← hti1, ← hti2, hnew, ← hmatch,
      List.getD_eq_getElem p.entry.word ' ' hk]
  · push_neg at hex
    unfold place_word
    rw [getCell_placeUpTo_ne w row col d g w.length _ _
      (fun i hi hcon => hex i hi (by rw [hcon]; rfl)), hold,
      List.getD_eq_getElem p.entry.word ' ' hk]

theorem readsBack_new {g : Grid} {entry : WordEntry} {row col : Int} {d : Dir}
    (hsq : isSquare g) (hcp : can_place entry.word row col d g = true) :
    readsBack (place_word entry.word row col d g) ⟨entry, row, col, d⟩ :=
  place_then_read_core hsq hcp

theorem readsBack_shared {g : Grid} {p q : PlacedWord}
    (hp : readsBack g p) (hq : readsBack g q) {i j : Nat}
    (hi : i < p.entry.word.length) (hj : j < q.entry.word.length)
    (hcell : target p.row p.col p.direction i = target q.row q.col q.direction j) :
    p.entry.word.get ⟨i, hi⟩ = q.entry.word.get ⟨j, hj⟩ := by
  have h1 := readsBack_getCell hp hi
  have h2 := readsBack_getCell hq hj
  have hc1 : p.row + p.direction.dr * i = q.row + q.direction.dr * j :=
    congrArg Prod.fst hcell
  have hc2 : p.col + p.direction.dc * i = q.col + q.direction.dc * j :=
    congrArg Prod.snd hcell
  rw [hc1, hc2, h2] at h1
  have := Option.some.inj h1
  rw [List.get_eq_getElem, List.get_eq_getElem,
    ← List.getD_eq_getElem q.entry.word ' ' hj,
    ← List.getD_eq_getElem p.entry.word ' ' hi]
  exact this.symm

/-! ## Characterisation of the crossing search -/

theorem try_place_word_eq_firstFit (entry : WordEntry) (placed : List PlacedWord)
    (g : Grid) :
    try_place_word entry placed g =
      match (crossCandidates entry.word placed).find? (fun rcd =>
          can_place entry.word rcd.1 rcd.2.1 rcd.2.2 g) with
      | some (r, c, d) => (some ⟨entry, r, c, d⟩, place_word entry.word r c d g)
      | none => (none, g) := by
  induction placed with
  | nil => rfl
  | cons p rest ih =>
    rw [try_place_word]
    unfold crossCandidates
    rw [List.flatMap_cons, List.find?_append]
    cases hfind : (crossCandidatesFor entry.word p).find? (fun rcd =>
        can_place entry.word rcd.1 rcd.2.1 rcd.2.2 g) with
    | some rcd =>
      obtain ⟨r, c, d⟩ := rcd
      simp [Option.or]
    | none =>
      simp only [Option.or]
      exact ih

theorem try_place_word_cases (entry : WordEntry) (placed : List PlacedWord) (g : Grid) :
    try_place_word entry placed g = (none, g) ∨
      ∃ r c d, can_place entry.word r c d g = true ∧
        try_place_word entry placed g =
          (some ⟨entry, r, c, d⟩, place_word entry.word r c d g) := by
  rw [try_place_word_eq_firstFit]
  cases hfind : (crossCandidates entry.word placed).find? (fun rcd =>
      can_place entry.word rcd.1 rcd.2.1 rcd.2.2 g) with
  | none => exact Or.inl rfl
  | some rcd =>
    obtain ⟨r, c, d⟩ := rcd
    exact Or.inr ⟨r, c, d, by simpa using List.find?_some hfind, rfl⟩

theorem try_place_word_invariant {entry : WordEntry} {placed : List PlacedWord}
    {g : Grid} {res : Option PlacedWord} {g' : Grid}
    (hsq : isSquare g) (hinv : ∀ p ∈ placed, readsBack g p)
    (heq : try_place_word entry placed g = (res, g')) :
    isSquare g' ∧ g'.length = g.length ∧
      (∀ p ∈ placed, readsBack g' p) ∧ (∀ pw, res = some pw → readsBack g' pw) := by
  rcases try_place_word_cases entry placed g with h | ⟨r, c, d, hcp, h⟩
  · rw [heq] at h
    injection h with h1 h2
    subst h1
    subst h2
    exact ⟨hsq, rfl, hinv, fun pw hpw => by cases hpw⟩
  · rw [heq] at h
    injection h with h1 h2
    subst h1
    subst h2
    refine ⟨isSquare_placeUpTo hsq _ _ _ _ _, length_placeUpTo _ _ _ _ _ _,
      fun p hp => readsBack_place_word hsq hcp (hinv p hp), fun pw hpw => ?_⟩
    cases hpw
    exact readsBack_new hsq hcp

theorem can_place_spec_core {w : List Char} {row col : Int} {d : Dir} {g : Grid}
    (hw : w ≠ []) :
    can_place w row col d g = true ↔
      targetsInBounds w row col d g.length ∧ noLetterConflict w row col d g ∧
        perpendicularClear w row col d g g.length ∧
        endsClear w row col d g g.length := by
  rw [can_place_iff_parts]
  constructor
  · rintro ⟨hAll, hEnds⟩
    have hB : targetsInBounds w row col d g.length := fun i hi =>
      letterOk_onGrid (hAll i hi)
    refine ⟨hB, ?_, ?_, (endsOk_iff hw hB).mp hEnds⟩
    · intro i hi ch hch
      have h2 := (letterOk_iff.mp (hAll i hi)).2.1 ch hch
      rw [h2, List.getD_eq_getElem w ' ' hi, List.get_eq_getElem]
    · intro i hi hnone nb hnb hog2
      exact (letterOk_iff.mp (hAll i hi)).2.2 hnone nb hnb hog2
  · rintro ⟨hB, hC, hP, hE⟩
    refine ⟨?_, (endsOk_iff hw hB).mpr hE⟩
    intro i hi
    refine letterOk_iff.mpr ⟨hB i hi, ?_, ?_⟩
    · intro ch hch
      have h2 := hC i hi ch hch
      rw [h2, List.get_eq_getElem, ← List.getD_eq_getElem w ' ' hi]
    · intro hnone nb hnb hog2
      exact hP i hi hnone nb hnb hog2

theorem placeLoop_invariant {rest : List WordEntry} {g : Grid} {placed : List PlacedWord}
    (hsq : isSquare g) (hinv : ∀ p ∈ placed, readsBack g p) :
    isSquare (placeLoop rest g placed).1 ∧
      ∀ p ∈ (placeLoop rest g placed).2, readsBack (placeLoop rest g placed).1 p := by
  induction rest generalizing g placed with
  | nil => exact ⟨hsq, hinv⟩
  | cons e es ih =>
    rw [placeLoop]
    cases htp : try_place_word e placed g with
    | mk res g' =>
      obtain ⟨hs', _, hold, hnew⟩ := try_place_word_invariant hsq hinv htp
      cases res with
      | some pw =>
        exact ih hs' (fun p hp => by
          rcases List.mem_append.mp hp with h | h
          · exact hold p h
          · rw [List.mem_singleton.mp h]
            exact hnew pw rfl)
      | none => exact ih hs' hold

theorem isSquare_initialise (N : Nat) : isSquare (initialise_grid N) := by
  intro k hk
  simp only [initialise_grid, List.length_replicate] at hk ⊢
  rw [getD_replicate', if_pos hk, List.length_replicate]

theorem placeLoop_nil_placed (rest : List WordEntry) (g : Grid) :
    placeLoop rest g [] = (g, []) := by
  induction rest with
  | nil => rfl
  | cons e es ih => exact ih

theorem can_place_initialise_iff {w : List Char} {row col : Int} {d : Dir}
    {N : Nat} :
    can_place w row col d (initialise_grid N) = true ↔
      targetsInBounds w row col d N := by
  rw [can_place_iff_parts]
  have hlen : (initialise_grid N).length = N := by
    simp [initialise_grid]
  constructor
  · rintro ⟨hAll, -⟩
    intro i hi
    have h := letterOk_onGrid (hAll i hi)
    rwa [hlen] at h
  · intro hB
    constructor
    · intro i hi
      refine letterOk_iff.mpr ⟨by rw [hlen]; exact hB i hi, ?_, ?_⟩
      · intro ch hch
        rw [getCell_initialise] at hch
        exact absurd hch (by simp)
      · rintro - nb hnb hog2
        exact getCell_initialise N nb.1 nb.2
    · cases d <;> simp [endsOk, getCell_initialise]

/-! ## Lemmas about `number_grid` -/

theorem numberStep_not_start (g : Grid) (placed : List PlacedWord) (size : Int)
    (st : Nat × Numbering) (rc : Nat × Nat) (h : isStart g size rc = false) :
    numberStep g placed size st rc = st := by
  simp only [numberStep]
  split
  case isTrue => rfl
  case isFalse hne =>
    have h2 : (startAcross g size rc.1 rc.2 || startDown g size rc.1 rc.2) = false := by
      unfold isStart at h
      rcases Bool.and_eq_false_iff.mp h with h3 | h3
      · exact absurd h3 (by simp [hne])
      · exact h3
    rw [if_neg (by rw [h2]; exact Bool.false_ne_true)]

theorem numberStep_start (g : Grid) (placed : List PlacedWord) (size : Int)
    (n : Nat) (acc : Numbering) (rc : Nat × Nat) (h : isStart g size rc = true) :
    numberStep g placed size (n, acc) rc =
      (n + 1,
       ⟨acc.numbers ++ [(n, rc)],
        acc.across ++ (if startAcross g size rc.1 rc.2 then
          ((findClue placed .horizontal rc.1 rc.2).map fun cl => (n, cl)).toList
          else []),
        acc.down ++ (if startDown g size rc.1 rc.2 then
          ((findClue placed .vertical rc.1 rc.2).map fun cl => (n, cl)).toList
          else [])⟩) := by
  unfold isStart at h
  rw [Bool.and_eq_true] at h
  obtain ⟨h1, h2⟩ := h
  simp only [numberStep]
  rw [if_neg (of_decide_eq_true h1), if_pos h2]
  congr 1
  congr 1
  · by_cases hsa : startAcross g size rc.1 rc.2 = true
    · rw [if_pos hsa, if_pos hsa]
      cases hfc : findClue placed Dir.horizontal (rc.1 : Int) (rc.2 : Int) with
      | none => simp
      | some cl => simp
    · rw [if_neg hsa, if_neg hsa, List.append_nil]
  · by_cases hsd : startDown g size rc.1 rc.2 = true
    · rw [if_pos hsd, if_pos hsd]
      cases hfc : findClue placed Dir.vertical (rc.1 : Int) (rc.2 : Int) with
      | none => simp
      | some cl => simp
    · rw [if_neg hsd, if_neg hsd, List.append_nil]

theorem acrossOf_cons (g : Grid) (size : Int) (placed : List PlacedWord)
    (n : Nat) (rc : Nat × Nat) (cells : List (Nat × Nat)) :
    acrossOf g size placed n (rc :: cells) =
      (if startAcross g size rc.1 rc.2 then
        ((findClue placed .horizontal rc.1 rc.2).map fun cl => (n, cl)).toList
        else []) ++ acrossOf g size placed (n + 1) cells := by
  unfold acrossOf
  rw [List.enumFrom_cons, List.filterMap_cons]
  by_cases hsa : startAcross g size rc.1 rc.2 = true
  · rw [if_pos hsa]
    cases hfc : findClue placed .horizontal rc.1 rc.2 with
    | none => simp [hsa, hfc]
    | some cl => simp [hsa, hfc]
  · simp [hsa]

theorem downOf_cons (g : Grid) (size : Int) (placed : List PlacedWord)
    (n : Nat) (rc : Nat × Nat) (cells : List (Nat × Nat)) :
    downOf g size placed n (rc :: cells) =
      (if startDown g size rc.1 rc.2 then
        ((findClue placed .vertical rc.1 rc.2).map fun cl => (n, cl)).toList
        else []) ++ downOf g size placed (n + 1) cells := by
  unfold downOf
  rw [List.enumFrom_cons, List.filterMap_cons]
  by_cases hsd : startDown g size rc.1 rc.2 = true
  · rw [if_pos hsd]
    cases hfc : findClue placed .vertical rc.1 rc.2 with
    | none => simp [hsd, hfc]
    | some cl => simp [hsd, hfc]
  · simp [hsd]

theorem foldl_numberStep (g : Grid) (placed : List PlacedWord)
    (L : List (Nat × Nat)) (n : Nat) (acc : Numbering) :
    L.foldl (numberStep g placed g.length) (n, acc) =
      (n + (L.filter (isStart g g.length)).length,
       ⟨acc.numbers ++ List.enumFrom n (L.filter (isStart g g.length)),
        acc.across ++
          acrossOf g g.length placed n (L.filter (isStart g g.length)),
        acc.down ++
          downOf g g.length placed n (L.filter (isStart g g.length))⟩) := by
  induction L generalizing n acc with
  | nil =>
    simp [acrossOf, downOf, List.enumFrom]
  | cons rc L' ih =>
    rw [List.foldl_cons]
    by_cases hst : isStart g g.length rc = true
    · rw [numberStep_start g placed g.length n acc rc hst, ih,
        List.filter_cons_of_pos hst, List.enumFrom_cons, acrossOf_cons,
        downOf_cons]
      refine Prod.ext (by simp; omega) ?_
      simp [List.append_assoc]
    · rw [numberStep_not_start g placed g.length _ rc
        (Bool.eq_false_iff.mpr hst), ih, List.filter_cons_of_neg hst]

theorem number_grid_eq_core (g : Grid) (placed : List PlacedWord) :
    number_grid g placed =
      ⟨numbersSpec g, acrossSpec g placed, downSpec g placed⟩ := by
  unfold number_grid numbersSpec acrossSpec downSpec numberedCells
  rw [foldl_numberStep]
  simp

theorem pairwise_cellsRM (N : Nat) : List.Pairwise rowMajorLt (cellsRM N) := by
  unfold cellsRM
  rw [List.pairwise_flatMap]
  constructor
  · intro r hr
    rw [List.pairwise_map]
    apply List.Pairwise.imp ?_ (List.pairwise_lt_range N)
    intro a b hab
    exact Or.inr ⟨rfl, hab⟩
  · apply List.Pairwise.imp ?_ (List.pairwise_lt_range N)
    intro r1 r2 h12 x hx y hy
    simp only [List.mem_map] at hx hy
    obtain ⟨c1, -, rfl⟩ := hx
    obtain ⟨c2, -, rfl⟩ := hy
    exact Or.inl h12

/-! ## Claim theorems -/

/-- C1: `can_place(word, row, col, direction, grid)` returns `True` if and
only if (1) every target cell is on the grid, (2) no target cell holds a
letter different from the word's letter at that index, (3) every currently
empty target cell has empty on-grid perpendicular neighbours, and (4) the
on-grid cells immediately before the start and after the end along the
word's axis are empty.  Stated for non-empty words; the Python function is
only defined on non-empty words (on an empty word its end-of-word checks
would index the grid without first bounds-checking `row`/`col`). -/
theorem can_place_correct (w : List Char) (row col : Int) (d : Dir) (g : Grid)
    (hw : w ≠ []) :
    can_place w row col d g = true ↔
      targetsInBounds w row col d g.length ∧ noLetterConflict w row col d g ∧
        perpendicularClear w row col d g g.length ∧
        endsClear w row col d g g.length :=
  can_place_spec_core hw

/-- Witness for C1 at a concrete input: a 2-letter word on an empty 2×2
grid is placeable, and the theorem yields the four spec conditions. -/
theorem can_place_correct_witness :
    targetsInBounds [' ', ' '] 0 0 Dir.horizontal (initialise_grid 2).length ∧
      noLetterConflict [' ', ' '] 0 0 Dir.horizontal (initialise_grid 2) ∧
      perpendicularClear [' ', ' '] 0 0 Dir.horizontal (initialise_grid 2)
        (initialise_grid 2).length ∧
      endsClear [' ', ' '] 0 0 Dir.horizontal (initialise_grid 2)
        (initialise_grid 2).length :=
  (can_place_correct [' ', ' '] 0 0 Dir.horizontal (initialise_grid 2)
    (by decide)).mp (by decide)

/-- C2: `try_place_word` is a first-fit search over crossing candidates
enumerated in the exact order: placed words oldest first, then placed
letter index ascending, then candidate letter index ascending, with the
anchor and opposite orientation given by `crossPos`; the first candidate
accepted by `can_place` is written with `place_word` and returned, and if
none is accepted the result is `None` with the grid untouched. -/
theorem try_place_word_first_fit (entry : WordEntry) (placed : List PlacedWord)
    (g : Grid) :
    try_place_word entry placed g =
      match (crossCandidates entry.word placed).find? (fun rcd =>
          can_place entry.word rcd.1 rcd.2.1 rcd.2.2 g) with
      | some (r, c, d) => (some ⟨entry, r, c, d⟩, place_word entry.word r c d g)
      | none => (none, g) :=
  try_place_word_eq_firstFit entry placed g

/-- C6: whenever `can_place` accepts a placement on a square grid, writing
the word with `place_word` and then reading the target cells in index
order yields exactly the word's letters. -/
theorem place_word_roundtrip (w : List Char) (row col : Int) (d : Dir) (g : Grid)
    (hsq : isSquare g) (hcp : can_place w row col d g = true) :
    readCells (place_word w row col d g) row col d w.length = w.map some :=
  place_then_read_core hsq hcp

/-- Witness for C6 at a concrete input: placing a 2-letter word on an
empty 3×3 grid and reading it back. -/
theorem place_word_roundtrip_witness :
    readCells (place_word ['A', 'B'] 1 0 Dir.horizontal (initialise_grid 3))
      1 0 Dir.horizontal (['A', 'B'] : List Char).length =
      (['A', 'B'] : List Char).map some :=
  place_word_roundtrip ['A', 'B'] 1 0 Dir.horizontal (initialise_grid 3)
    (by decide) (by decide)

/-- C7: the validator mutates nothing (in this embedding `can_place` is a
pure function of the grid), and each `try_place_word` call either leaves
the grid exactly unchanged and returns `None`, or fully writes one
`can_place`-validated word via `place_word` — there is no partial write. -/
theorem try_place_word_atomic (entry : WordEntry) (placed : List PlacedWord)
    (g : Grid) :
    try_place_word entry placed g = (none, g) ∨
      ∃ r c d, can_place entry.word r c d g = true ∧
        try_place_word entry placed g =
          (some ⟨entry, r, c, d⟩, place_word entry.word r c d g) :=
  try_place_word_cases entry placed g

/-- C9: a word longer than the grid is rejected by `can_place` at every
position and direction, and consequently `try_place_word` never places it
against any list of placed words. -/
theorem long_word_never_placed (w : List Char) (g : Grid)
    (h : g.length < w.length) :
    (∀ (row col : Int) (d : Dir), can_place w row col d g = false) ∧
      ∀ (clue : String) (placed : List PlacedWord),
        try_place_word ⟨w, clue⟩ placed g = (none, g) := by
  refine ⟨can_place_too_long h, fun clue placed => ?_⟩
  induction placed with
  | nil => rfl
  | cons p rest ih =>
    rw [try_place_word, List.find?_eq_none.mpr
      (fun x hx => by simp [can_place_too_long h])]
    exact ih

/-- C10: with an empty placed-word list, `try_place_word` returns `None`
and leaves the grid unchanged; hence the crossing loop started with no
placed words places nothing, and when the seed placement is rejected,
`generate_crossword` returns the untouched all-empty grid and an empty
placed-word sequence. -/
theorem empty_placed_no_placement (entry : WordEntry) (g : Grid)
    (rest : List WordEntry) :
    try_place_word entry [] g = (none, g) ∧
      placeLoop rest g [] = (g, []) ∧
      ∀ (sel : List WordEntry) (N : Nat) (first : WordEntry)
        (rest' : List WordEntry), sortCandidates sel = first :: rest' →
        can_place first.word ((N : Int) / 2)
          (max 0 (((N : Int) - (first.word.length : Int)) / 2)) Dir.horizontal
          (initialise_grid N) = false →
        generate_crossword sel N = (initialise_grid N, []) ∧
          ∀ r c : Int, getCell (generate_crossword sel N).1 r c = none := by
  refine ⟨rfl, placeLoop_nil_placed rest g, ?_⟩
  intro sel N first rest' hs hcp
  have hred : generate_crossword sel N =
      (if can_place first.word ((N : Int) / 2)
          (max 0 (((N : Int) - (first.word.length : Int)) / 2)) Dir.horizontal
          (initialise_grid N) then
        placeLoop rest'
          (place_word first.word ((N : Int) / 2)
            (max 0 (((N : Int) - (first.word.length : Int)) / 2)) Dir.horizontal
            (initialise_grid N))
          [⟨first, (N : Int) / 2,
            max 0 (((N : Int) - (first.word.length : Int)) / 2), Dir.horizontal⟩]
      else placeLoop rest' (initialise_grid N) []) := by
    unfold generate_crossword
    rw [hs]
  have hgen : generate_crossword sel N = (initialise_grid N, []) := by
    rw [hred, if_neg (by rw [hcp]; exact Bool.false_ne_true)]
    exact placeLoop_nil_placed rest' (initialise_grid N)
  exact ⟨hgen, fun r c => by rw [hgen]; exact getCell_initialise N r c⟩

/-- Witness for C10 at concrete inputs: no placed words means no placement,
and a seed word longer than the grid leaves the whole run empty. -/
theorem empty_placed_no_placement_witness :
    try_place_word ⟨['A'], "w"⟩ [] (initialise_grid 2) =
        (none, initialise_grid 2) ∧
      generate_crossword [⟨['A', 'B', 'C'], "x"⟩] 2 = (initialise_grid 2, []) :=
  ⟨(empty_placed_no_placement ⟨['A'], "w"⟩ (initialise_grid 2) []).1,
    ((empty_placed_no_placement ⟨['A'], "w"⟩ (initialise_grid 2) []).2.2
      [⟨['A', 'B', 'C'], "x"⟩] 2 ⟨['A', 'B', 'C'], "x"⟩ [] (by decide)
      (by decide)).1⟩

/-- C4: with a non-empty sorted candidate list, `generate_crossword`
attempts exactly one seed placement — the longest word, horizontal, at row
`N / 2` and column `max 0 ((N - L) / 2)`; on the empty grid that placement
is accepted iff `L ≤ N` (for `N ≥ 1`, `L ≥ 1`), and when rejected the seed
is skipped with no fallback position. -/
theorem seed_placement (sel : List WordEntry) (N : Nat) (first : WordEntry)
    (rest : List WordEntry) (hs : sortCandidates sel = first :: rest)
    (hN : 1 ≤ N) (hL : 1 ≤ first.word.length) :
    (can_place first.word ((N : Int) / 2)
        (max 0 (((N : Int) - (first.word.length : Int)) / 2)) Dir.horizontal
        (initialise_grid N) = true ↔ first.word.length ≤ N) ∧
      generate_crossword sel N =
        (if can_place first.word ((N : Int) / 2)
            (max 0 (((N : Int) - (first.word.length : Int)) / 2)) Dir.horizontal
            (initialise_grid N) then
          placeLoop rest
            (place_word first.word ((N : Int) / 2)
              (max 0 (((N : Int) - (first.word.length : Int)) / 2)) Dir.horizontal
              (initialise_grid N))
            [⟨first, (N : Int) / 2,
              max 0 (((N : Int) - (first.word.length : Int)) / 2), Dir.horizontal⟩]
        else placeLoop rest (initialise_grid N) []) := by
  constructor
  · constructor
    · intro hcp
      have hB := can_place_initialise_iff.mp hcp
      have h1 := hB (first.word.length - 1) (by omega)
      unfold onGrid at h1
      simp only [target, Dir.dr, Dir.dc] at h1
      by_contra hgt
      push_neg at hgt
      rw [max_eq_left
        (by omega : ((N : Int) - (first.word.length : Int)) / 2 ≤ 0)] at h1
      omega
    · intro hLN
      apply can_place_initialise_iff.mpr
      intro i hi
      unfold onGrid
      simp only [target, Dir.dr, Dir.dc]
      rw [max_eq_right
        (by omega : (0 : Int) ≤ ((N : Int) - (first.word.length : Int)) / 2)]
      omega
  · unfold generate_crossword
    rw [hs]

/-- Witness for C4 at a concrete input: a 4-letter seed on a 5×5 grid goes
to row 2, column 0, and is accepted. -/
theorem seed_placement_witness :
    can_place ['A', 'B', 'C', 'D'] (((5 : Nat) : Int) / 2)
        (max 0 ((((5 : Nat) : Int) - ((['A', 'B', 'C', 'D'] : List Char).length : Int)) / 2))
        Dir.horizontal (initialise_grid 5) = true ↔
      (['A', 'B', 'C', 'D'] : List Char).length ≤ 5 :=
  (seed_placement [⟨['A', 'B', 'C', 'D'], "w"⟩] 5 ⟨['A', 'B', 'C', 'D'], "w"⟩ []
    (by decide) (by decide) (by decide)).1

/-- C3: after each successful `try_place_word` step starting from a state
whose placed words all read back, every placed word (old and new) still
reads back from the grid; consequently every placed word of
`generate_crossword` reads back from the final grid, and any two placed
words covering a common cell have equal letters there. -/
theorem placement_invariant :
    (∀ (entry : WordEntry) (placed : List PlacedWord) (g : Grid)
      (res : Option PlacedWord) (g' : Grid), isSquare g →
      (∀ p ∈ placed, readsBack g p) →
      try_place_word entry placed g = (res, g') →
      ∀ p ∈ placed ++ res.toList, readsBack g' p) ∧
    ∀ (sel : List WordEntry) (N : Nat),
      (∀ p ∈ (generate_crossword sel N).2,
        readsBack (generate_crossword sel N).1 p) ∧
      ∀ p ∈ (generate_crossword sel N).2, ∀ q ∈ (generate_crossword sel N).2,
        ∀ i j (hi : i < p.entry.word.length) (hj : j < q.entry.word.length),
        target p.row p.col p.direction i = target q.row q.col q.direction j →
        p.entry.word.get ⟨i, hi⟩ = q.entry.word.get ⟨j, hj⟩ := by
  constructor
  · intro entry placed g res g' hsq hinv heq p hp
    obtain ⟨-, -, hold, hnew⟩ := try_place_word_invariant hsq hinv heq
    rcases List.mem_append.mp hp with h | h
    · exact hold p h
    · cases res with
      | none => exact absurd h (by simp)
      | some pw =>
        rw [show p = pw by simpa using h]
        exact hnew pw rfl
  · intro sel N
    have key : isSquare (generate_crossword sel N).1 ∧
        ∀ p ∈ (generate_crossword sel N).2,
          readsBack (generate_crossword sel N).1 p := by
      cases hs : sortCandidates sel with
      | nil =>
        have hred : generate_crossword sel N = (initialise_grid N, []) := by
          unfold generate_crossword
          rw [hs]
        rw [hred]
        exact ⟨isSquare_initialise N, fun p hp => absurd hp (by simp)⟩
      | cons first rest =>
        have hred : generate_crossword sel N =
            (if can_place first.word ((N : Int) / 2)
                (max 0 (((N : Int) - (first.word.length : Int)) / 2)) Dir.horizontal
                (initialise_grid N) then
              placeLoop rest
                (place_word first.word ((N : Int) / 2)
                  (max 0 (((N : Int) - (first.word.length : Int)) / 2)) Dir.horizontal
                  (initialise_grid N))
                [⟨first, (N : Int) / 2,
                  max 0 (((N : Int) - (first.word.length : Int)) / 2), Dir.horizontal⟩]
            else placeLoop rest (initialise_grid N) []) := by
          unfold generate_crossword
          rw [hs]
        rw [hred]
        by_cases hcp : can_place first.word ((N : Int) / 2)
            (max 0 (((N : Int) - (first.word.length : Int)) / 2)) Dir.horizontal
            (initialise_grid N) = true
        · rw [if_pos hcp]
          exact placeLoop_invariant
            (isSquare_placeUpTo (isSquare_initialise N) _ _ _ _ _)
            (fun p hp => by
              rw [List.mem_singleton.mp hp]
              exact readsBack_new (isSquare_initialise N) hcp)
        · rw [if_neg hcp]
          exact placeLoop_invariant (isSquare_initialise N)
            (fun p hp => absurd hp (by simp))
    exact ⟨key.2, fun p hp q hq i j hi hj hc =>
      readsBack_shared (key.2 p hp) (key.2 q hq) hi hj hc⟩

/-- Witness for C3 at a concrete input: crossing a one-letter word through
a placed one-letter word on a 3×3 grid preserves the read-back invariant
of the previously placed word. -/
theorem placement_invariant_witness :
    readsBack
      (place_word ['A'] 1 1 Dir.vertical (setCell (initialise_grid 3) 1 1 'A'))
      ⟨⟨['A'], "y"⟩, 1, 1, Dir.horizontal⟩ :=
  placement_invariant.1 ⟨['A'], "x"⟩ [⟨⟨['A'], "y"⟩, 1, 1, Dir.horizontal⟩]
    (setCell (initialise_grid 3) 1 1 'A')
    (some ⟨⟨['A'], "x"⟩, 1, 1, Dir.vertical⟩)
    (place_word ['A'] 1 1 Dir.vertical (setCell (initialise_grid 3) 1 1 'A'))
    (by decide) (by decide) (by decide)
    ⟨⟨['A'], "y"⟩, 1, 1, Dir.horizontal⟩ (by decide)

/-- C5: `number_grid` scans the grid row-major and numbers exactly the
non-empty cells that start an across answer (left neighbour off-grid or
empty, right neighbour on-grid and non-empty) or a down answer (the
symmetric vertical condition); each across (down) number is bound to the
clue of the first placed horizontal (vertical) word whose anchor is the
numbered cell: the three returned maps equal the spec-side `numbersSpec`,
`acrossSpec` and `downSpec`. -/
theorem number_grid_spec (g : Grid) (placed : List PlacedWord) :
    number_grid g placed =
      ⟨numbersSpec g, acrossSpec g placed, downSpec g placed⟩ :=
  number_grid_eq_core g placed

/-- C8: the keys of the numbers map are exactly `1, …, k`, assigned in
order with one increment per numbered cell (no gaps, no repeats), and the
bound coordinates are strictly increasing in row-major order (so each
coordinate appears at most once). -/
theorem numbering_sequential (g : Grid) (placed : List PlacedWord) :
    (number_grid g placed).numbers.map Prod.fst =
        List.range' 1 (number_grid g placed).numbers.length ∧
      List.Pairwise rowMajorLt ((number_grid g placed).numbers.map Prod.snd) := by
  rw [number_grid_eq_core g placed]
  constructor
  · show (numbersSpec g).map Prod.fst = List.range' 1 (numbersSpec g).length
    unfold numbersSpec
    rw [List.enumFrom_map_fst, List.enumFrom_length]
  · show List.Pairwise rowMajorLt ((numbersSpec g).map Prod.snd)
    unfold numbersSpec
    rw [List.enumFrom_map_snd]
    exact List.Pairwise.filter _ (pairwise_cellsRM g.length)

/-- Witness for C9 at a concrete input: a 3-letter word on a 2×2 grid. -/
theorem long_word_never_placed_witness :
    can_place ['A', 'B', 'C'] 0 0 Dir.horizontal (initialise_grid 2) = false ∧
      try_place_word ⟨['A', 'B', 'C'], "x"⟩
        [⟨⟨['A', 'B'], "y"⟩, 0, 0, Dir.horizontal⟩] (initialise_grid 2) =
        (none, initialise_grid 2) :=
  ⟨(long_word_never_placed ['A', 'B', 'C'] (initialise_grid 2) (by decide)).1
      0 0 Dir.horizontal,
    (long_word_never_placed ['A', 'B', 'C'] (initialise_grid 2) (by decide)).2
      "x" [⟨⟨['A', 'B'], "y"⟩, 0, 0, Dir.horizontal⟩]⟩

end Crossword
